import Mathlib

/-!
# Verification of the Range256 range-check chip

Shallow embedding of `src/prover/src/chips/range_check/range256.rs`:
the two-pass multiplicity fill (`fill_main_trace` / `fill_main_cols`),
the logup interaction-trace generation (`fill_interaction_trace` /
`check_bytes`), and the constraint emission (`add_constraints`).

Machine values (`BaseField` elements that the chip range-checks) are
modelled as natural numbers: the chip only ever reads the canonical
integer representative (`limb.0` in the source).  The extension field in
which logup claimed sums live (`SecureField`) is external to this
repository, so sums are stated over an arbitrary field `K`; the
relation `combine` of the external framework and the reference-table
side of the lookup argument are modelled from the spec.
-/

set_option maxRecDepth 2000

namespace NexusRange256

/-- The trace columns referenced by the Range256 chip (imported from
`crate::column::Column` in the source). -/
inductive Column where
  | Pc | PcNextAux | InstrVal | PrevCtr | ValueA | ValueB | ValueC
  | Reg1TsPrev | Reg2TsPrev | Reg3TsPrev | Helper1 | ProgCtrCur | ProgCtrPrev
  | FinalPrgMemoryCtr | CReg1TsPrev | CReg2TsPrev | CReg3TsPrev | RamBaseAddr
  | Ram1TsPrev | Ram2TsPrev | Ram3TsPrev | Ram4TsPrev
  | Ram1TsPrevAux | Ram2TsPrevAux | Ram3TsPrevAux | Ram4TsPrevAux
  | Rem | Qt | RemDiff | RamInitFinalAddr | RamFinalCounter
  | Ram1ValCur | Ram2ValCur | Ram3ValCur | Ram4ValCur
  | Ram1ValPrev | Ram2ValPrev | Ram3ValPrev | Ram4ValPrev | RamFinalValue
  | OpC16_23 | OpC24_31
  deriving DecidableEq

/-- `nexus_vm::WORD_SIZE`: number of byte limbs in a word. -/
def WORD_SIZE : ℕ := 4

namespace Range256Chip

/-- `Range256Chip::CHECKED_WORDS`: the 31 word columns whose four limbs
are each range-checked. -/
def CHECKED_WORDS : List Column :=
  [.Pc, .PcNextAux, .InstrVal, .PrevCtr, .ValueA, .ValueB, .ValueC,
   .Reg1TsPrev, .Reg2TsPrev, .Reg3TsPrev, .Helper1, .ProgCtrCur, .ProgCtrPrev,
   .FinalPrgMemoryCtr, .CReg1TsPrev, .CReg2TsPrev, .CReg3TsPrev, .RamBaseAddr,
   .Ram1TsPrev, .Ram2TsPrev, .Ram3TsPrev, .Ram4TsPrev,
   .Ram1TsPrevAux, .Ram2TsPrevAux, .Ram3TsPrevAux, .Ram4TsPrevAux,
   .Rem, .Qt, .RemDiff, .RamInitFinalAddr, .RamFinalCounter]

/-- `Range256Chip::CHECKED_BYTES`: the 9 single-limb columns that are
range-checked unconditionally. -/
def CHECKED_BYTES : List Column :=
  [.Ram1ValCur, .Ram2ValCur, .Ram3ValCur, .Ram4ValCur,
   .Ram1ValPrev, .Ram2ValPrev, .Ram3ValPrev, .Ram4ValPrev, .RamFinalValue]

/-- `Range256Chip::TYPE_U_CHECKED_BYTES`: the 2 single-limb columns that are
range-checked only on rows where the `IsTypeU` virtual column is nonzero. -/
def TYPE_U_CHECKED_BYTES : List Column := [.OpC16_23, .OpC24_31]

end Range256Chip

/-- The mutable trace builder: a fixed number of rows, and for each
column a word of up to four byte limbs per row.  Cell values are the
canonical natural-number representatives of `BaseField` elements. -/
structure TracesBuilder where
  numRows : ℕ
  cell : Column → ℕ → Fin 4 → ℕ

/-- `traces.column::<WORD_SIZE>(row, col)`: the four limbs of a word column. -/
def TracesBuilder.wordLimbs (t : TracesBuilder) (row : ℕ) (c : Column) : List ℕ :=
  List.ofFn fun k : Fin 4 => t.cell c row k

/-- `traces.column::<1>(row, col)`: the single limb of a byte column. -/
def TracesBuilder.byteLimbs (t : TracesBuilder) (row : ℕ) (c : Column) : List ℕ :=
  [t.cell c row 0]

/-- Modelled from the spec: the `IsTypeU` virtual column is a pure
function of the raw trace columns of one row (its concrete algebraic
formula lives in `virtual_column.rs`, which is not part of the sources
under verification).  A value of this type is that per-row function. -/
def PredFn : Type := (Column → Fin 4 → ℕ) → ℕ

/-- `virtual_column::IsTypeU::read_from_traces_builder`: evaluate the
derived predicate from scalar builder cells at one row. -/
def IsTypeU.read_from_traces_builder (f : PredFn) (t : TracesBuilder) (row : ℕ) : ℕ :=
  f (fun c k => t.cell c row k)

/-- Build configuration: `cfg(test)` versus `cfg(not(test))`.  The
explicit range assertion in `fill_main_cols` is compiled only into
non-test builds. -/
inductive BuildMode where
  | test
  | nonTest
  deriving DecidableEq

/-- The ways `fill_main_cols` can abort on an out-of-range limb:
the `assert!(checked < 256)` in non-test builds (with the limb index of
the offending limb), or the out-of-bounds panic of
`multiplicity[checked as usize]` in test builds. -/
inductive RangeError where
  | assertionFailed (limbIndex : ℕ)
  | indexOutOfBounds
  deriving DecidableEq

/-- `side_note.range256.multiplicity`: the fixed 256-entry counter array. -/
def Multiplicity : Type := Fin 256 → ℕ

/-- The all-zero multiplicity table of a fresh side note. -/
def zeroMultiplicity : Multiplicity := fun _ => 0

/-- `multiplicity[v] += 1`. -/
def incr (m : Multiplicity) (v : Fin 256) : Multiplicity :=
  fun w => if w = v then m w + 1 else m w

/-- The loop body of `fill_main_cols`, tracking the enumerate index used
in the assertion message.  In non-test builds the assertion fires first
on an out-of-range limb; in test builds the direct array indexing
`multiplicity[checked as usize]` goes out of bounds instead. -/
def fillMainColsAux (mode : BuildMode) : ℕ → List ℕ → Multiplicity →
    Except RangeError Multiplicity
  | _, [], m => .ok m
  | idx, v :: rest, m =>
    if mode = BuildMode.nonTest ∧ 256 ≤ v then
      .error (.assertionFailed idx)
    else if h : v < 256 then
      fillMainColsAux mode (idx + 1) rest (incr m ⟨v, h⟩)
    else
      .error .indexOutOfBounds

/-- `fill_main_cols`: increment the multiplicity counter once per limb of
`value_col`. -/
def fill_main_cols (mode : BuildMode) (value_col : List ℕ) (m : Multiplicity) :
    Except RangeError Multiplicity :=
  fillMainColsAux mode 0 value_col m

/-- One iteration of the sweep loop of `fill_main_trace`: all word
columns, then all byte columns, then — on rows where `IsTypeU` is
nonzero — the conditionally checked byte columns. -/
def sweepRow (mode : BuildMode) (f : PredFn) (t : TracesBuilder)
    (m : Multiplicity) (row : ℕ) : Except RangeError Multiplicity := do
  let m1 ← Range256Chip.CHECKED_WORDS.foldlM
    (fun m c => fill_main_cols mode (t.wordLimbs row c) m) m
  let m2 ← Range256Chip.CHECKED_BYTES.foldlM
    (fun m c => fill_main_cols mode (t.byteLimbs row c) m) m1
  if IsTypeU.read_from_traces_builder f t row ≠ 0 then
    Range256Chip.TYPE_U_CHECKED_BYTES.foldlM
      (fun m c => fill_main_cols mode (t.byteLimbs row c) m) m2
  else
    pure m2

/-- The full second pass of `fill_main_trace` over rows `0..num_rows`. -/
def sweep (mode : BuildMode) (f : PredFn) (t : TracesBuilder) (m : Multiplicity) :
    Except RangeError Multiplicity :=
  (List.range t.numRows).foldlM (sweepRow mode f t) m

/-- `Range256Chip::fill_main_trace`: waits (no-op) until the call whose
`row_idx + 1` reaches `num_rows`, then performs the full sweep.  The
builder is only read, never written; it is returned alongside the
multiplicity table to make that explicit. -/
def fill_main_trace (mode : BuildMode) (f : PredFn) (t : TracesBuilder)
    (row_idx : ℕ) (m : Multiplicity) :
    Except RangeError (TracesBuilder × Multiplicity) :=
  if row_idx + 1 < t.numRows then .ok (t, m)
  else (sweep mode f t m).map fun m' => (t, m')

/-- Pure reference version of the multiplicity update: increment once per
in-range limb (out-of-range limbs never reach the counter update). -/
def incrList (l : List ℕ) (m : Multiplicity) : Multiplicity :=
  l.foldl (fun m v => if h : v < 256 then incr m ⟨v, h⟩ else m) m

/-- All limbs that the sweep checks on one row, in sweep order. -/
def rowLimbs (f : PredFn) (t : TracesBuilder) (row : ℕ) : List ℕ :=
  Range256Chip.CHECKED_WORDS.flatMap (t.wordLimbs row)
    ++ Range256Chip.CHECKED_BYTES.flatMap (t.byteLimbs row)
    ++ if IsTypeU.read_from_traces_builder f t row ≠ 0 then
         Range256Chip.TYPE_U_CHECKED_BYTES.flatMap (t.byteLimbs row)
       else []

/-- All limbs the full sweep checks, in sweep order. -/
def allLimbs (f : PredFn) (t : TracesBuilder) : List ℕ :=
  (List.range t.numRows).flatMap (rowLimbs f t)

/-- The exact number of checked (row, column, limb) occurrences of the
value `v`: every limb of the 31 word columns, the single limb of the 9
byte columns, and the single limb of the 2 conditional columns on rows
where the `IsTypeU` predicate is 1. -/
def occCount (f : PredFn) (t : TracesBuilder) (v : ℕ) : ℕ :=
  ∑ row ∈ Finset.range t.numRows,
    ((Range256Chip.CHECKED_WORDS.map fun c => (t.wordLimbs row c).count v).sum
      + (Range256Chip.CHECKED_BYTES.map fun c => (t.byteLimbs row c).count v).sum
      + if IsTypeU.read_from_traces_builder f t row = 1 then
          (Range256Chip.TYPE_U_CHECKED_BYTES.map fun c => (t.byteLimbs row c).count v).sum
        else 0)

/-! ## Basic lemmas about the multiplicity fill -/

theorem except_bind_ok {ε α β : Type} (x : Except ε α) (g : α → Except ε β) (b : β) :
    x >>= g = .ok b ↔ ∃ a, x = .ok a ∧ g a = .ok b := by
  cases x <;> simp [Bind.bind, Except.bind]

theorem except_pure {ε α : Type} (a : α) : (pure a : Except ε α) = .ok a := rfl

theorem except_map_ok {ε α β : Type} (g : α → β) (x : Except ε α) (b : β) :
    x.map g = .ok b ↔ ∃ a, x = .ok a ∧ g a = b := by
  cases x <;> simp [Except.map, eq_comm]

theorem incrList_nil (m : Multiplicity) : incrList [] m = m := rfl

theorem incrList_cons (v : ℕ) (rest : List ℕ) (m : Multiplicity) :
    incrList (v :: rest) m
      = incrList rest (if h : v < 256 then incr m ⟨v, h⟩ else m) := rfl

theorem incrList_append (l₁ l₂ : List ℕ) (m : Multiplicity) :
    incrList (l₁ ++ l₂) m = incrList l₂ (incrList l₁ m) := by
  simp [incrList, List.foldl_append]

theorem incrList_count (l : List ℕ) (m : Multiplicity) (v : Fin 256) :
    incrList l m v = m v + l.count (v : ℕ) := by
  induction l generalizing m with
  | nil => simp [incrList]
  | cons a rest ih =>
    rw [incrList_cons, ih]
    by_cases ha : a < 256
    · rw [dif_pos ha]
      by_cases hav : a = (v : ℕ)
      · have hveq : (⟨a, ha⟩ : Fin 256) = v := Fin.ext hav
        rw [hveq]
        simp [incr, List.count_cons, hav]
        omega
      · have hne : v ≠ ⟨a, ha⟩ := fun h => hav (by rw [h])
        simp only [incr, if_neg hne, List.count_cons, beq_iff_eq, if_neg hav]
        omega
    · rw [dif_neg ha]
      have hav : ¬(a = (v : ℕ)) := by have := v.isLt; omega
      simp only [List.count_cons, beq_iff_eq, if_neg hav]
      omega

theorem fillMainColsAux_cons (mode : BuildMode) (idx v : ℕ) (rest : List ℕ)
    (m : Multiplicity) :
    fillMainColsAux mode idx (v :: rest) m
      = if mode = BuildMode.nonTest ∧ 256 ≤ v then .error (.assertionFailed idx)
        else if h : v < 256 then fillMainColsAux mode (idx + 1) rest (incr m ⟨v, h⟩)
        else .error .indexOutOfBounds := rfl

theorem fillMainColsAux_ok_iff (mode : BuildMode) (idx : ℕ) (l : List ℕ)
    (m m' : Multiplicity) :
    fillMainColsAux mode idx l m = .ok m' ↔
      (∀ x ∈ l, x < 256) ∧ m' = incrList l m := by
  induction l generalizing idx m with
  | nil => simp [fillMainColsAux, incrList, eq_comm]
  | cons v rest ih =>
    rw [fillMainColsAux_cons]
    by_cases hv : v < 256
    · have hc : ¬(mode = BuildMode.nonTest ∧ 256 ≤ v) := fun h => by omega
      rw [if_neg hc, dif_pos hv, ih, incrList_cons, dif_pos hv]
      simp [hv]
    · have hgoal : ¬((∀ x ∈ v :: rest, x < 256) ∧ m' = incrList (v :: rest) m) :=
        fun h => absurd (h.1 v (List.mem_cons_self v rest)) hv
      by_cases hc : mode = BuildMode.nonTest ∧ 256 ≤ v
      · rw [if_pos hc]
        exact iff_of_false (by simp) hgoal
      · rw [if_neg hc, dif_neg hv]
        exact iff_of_false (by simp) hgoal

theorem fill_main_cols_ok_iff (mode : BuildMode) (l : List ℕ) (m m' : Multiplicity) :
    fill_main_cols mode l m = .ok m' ↔ (∀ x ∈ l, x < 256) ∧ m' = incrList l m :=
  fillMainColsAux_ok_iff mode 0 l m m'

/-- Generic counting lemma for `foldlM` over increment-style steps. -/
theorem foldlM_incr_ok_iff {α : Type}
    (step : Multiplicity → α → Except RangeError Multiplicity)
    (P : α → Prop) (g : α → List ℕ)
    (hstep : ∀ a m m', step m a = .ok m' ↔ (P a ∧ m' = incrList (g a) m))
    (l : List α) (m m' : Multiplicity) :
    l.foldlM step m = .ok m' ↔ ((∀ a ∈ l, P a) ∧ m' = incrList (l.flatMap g) m) := by
  induction l generalizing m with
  | nil => simp [except_pure, eq_comm, incrList]
  | cons a as ih =>
    rw [List.foldlM_cons, except_bind_ok]
    constructor
    · rintro ⟨m1, h1, h2⟩
      obtain ⟨hPa, rfl⟩ := (hstep a m m1).mp h1
      obtain ⟨hPas, rfl⟩ := (ih _).mp h2
      refine ⟨?_, by rw [List.flatMap_cons, incrList_append]⟩
      intro x hx
      rcases List.mem_cons.mp hx with h | h
      · exact h ▸ hPa
      · exact hPas x h
    · rintro ⟨hall, rfl⟩
      refine ⟨incrList (g a) m, (hstep a m _).mpr ⟨hall a (List.mem_cons_self a as), rfl⟩, ?_⟩
      exact (ih _).mpr ⟨fun x hx => hall x (List.mem_cons_of_mem a hx),
        by rw [List.flatMap_cons, incrList_append]⟩

theorem foldFill_ok_iff {α : Type} (mode : BuildMode) (cols : List α)
    (g : α → List ℕ) (m m' : Multiplicity) :
    cols.foldlM (fun m a => fill_main_cols mode (g a) m) m = .ok m' ↔
      ((∀ a ∈ cols, ∀ x ∈ g a, x < 256) ∧ m' = incrList (cols.flatMap g) m) :=
  foldlM_incr_ok_iff _ (fun a => ∀ x ∈ g a, x < 256) g
    (fun a m m' => fill_main_cols_ok_iff mode (g a) m m') cols m m'

theorem sweepRow_eq (mode : BuildMode) (f : PredFn) (t : TracesBuilder)
    (m : Multiplicity) (row : ℕ) :
    sweepRow mode f t m row =
      (Range256Chip.CHECKED_WORDS.foldlM
          (fun m c => fill_main_cols mode (t.wordLimbs row c) m) m) >>= fun m1 =>
      (Range256Chip.CHECKED_BYTES.foldlM
          (fun m c => fill_main_cols mode (t.byteLimbs row c) m) m1) >>= fun m2 =>
      if IsTypeU.read_from_traces_builder f t row ≠ 0 then
        Range256Chip.TYPE_U_CHECKED_BYTES.foldlM
          (fun m c => fill_main_cols mode (t.byteLimbs row c) m) m2
      else
        pure m2 := rfl

theorem rowLimbs_pos (f : PredFn) (t : TracesBuilder) (row : ℕ)
    (hp : IsTypeU.read_from_traces_builder f t row ≠ 0) :
    rowLimbs f t row = Range256Chip.CHECKED_WORDS.flatMap (t.wordLimbs row)
      ++ Range256Chip.CHECKED_BYTES.flatMap (t.byteLimbs row)
      ++ Range256Chip.TYPE_U_CHECKED_BYTES.flatMap (t.byteLimbs row) := by
  rw [rowLimbs, if_pos hp]

theorem rowLimbs_zero (f : PredFn) (t : TracesBuilder) (row : ℕ)
    (hp : ¬IsTypeU.read_from_traces_builder f t row ≠ 0) :
    rowLimbs f t row = Range256Chip.CHECKED_WORDS.flatMap (t.wordLimbs row)
      ++ Range256Chip.CHECKED_BYTES.flatMap (t.byteLimbs row) := by
  rw [rowLimbs, if_neg hp, List.append_nil]

theorem sweepRow_ok_iff (mode : BuildMode) (f : PredFn) (t : TracesBuilder)
    (m m' : Multiplicity) (row : ℕ) :
    sweepRow mode f t m row = .ok m' ↔
      ((∀ x ∈ rowLimbs f t row, x < 256) ∧ m' = incrList (rowLimbs f t row) m) := by
  rw [sweepRow_eq]
  simp only [except_bind_ok]
  by_cases hp : IsTypeU.read_from_traces_builder f t row ≠ 0
  · rw [rowLimbs_pos f t row hp]
    constructor
    · rintro ⟨m1, h1, m2, h2, h3⟩
      rw [if_pos hp] at h3
      obtain ⟨h1a, rfl⟩ := (foldFill_ok_iff _ _ _ _ _).mp h1
      obtain ⟨h2a, rfl⟩ := (foldFill_ok_iff _ _ _ _ _).mp h2
      obtain ⟨h3a, rfl⟩ := (foldFill_ok_iff _ _ _ _ _).mp h3
      refine ⟨?_, by rw [incrList_append, incrList_append]⟩
      intro x hx
      rcases List.mem_append.mp hx with hx | hx
      · rcases List.mem_append.mp hx with hx | hx
        · obtain ⟨c, hc, hxc⟩ := List.mem_flatMap.mp hx
          exact h1a c hc x hxc
        · obtain ⟨c, hc, hxc⟩ := List.mem_flatMap.mp hx
          exact h2a c hc x hxc
      · obtain ⟨c, hc, hxc⟩ := List.mem_flatMap.mp hx
        exact h3a c hc x hxc
    · rintro ⟨hall, rfl⟩
      have hW : ∀ c ∈ Range256Chip.CHECKED_WORDS, ∀ x ∈ t.wordLimbs row c, x < 256 :=
        fun c hc x hxc => hall x (List.mem_append.mpr (Or.inl (List.mem_append.mpr
          (Or.inl (List.mem_flatMap.mpr ⟨c, hc, hxc⟩)))))
      have hB : ∀ c ∈ Range256Chip.CHECKED_BYTES, ∀ x ∈ t.byteLimbs row c, x < 256 :=
        fun c hc x hxc => hall x (List.mem_append.mpr (Or.inl (List.mem_append.mpr
          (Or.inr (List.mem_flatMap.mpr ⟨c, hc, hxc⟩)))))
      have hU : ∀ c ∈ Range256Chip.TYPE_U_CHECKED_BYTES, ∀ x ∈ t.byteLimbs row c, x < 256 :=
        fun c hc x hxc => hall x (List.mem_append.mpr (Or.inr
          (List.mem_flatMap.mpr ⟨c, hc, hxc⟩)))
      refine ⟨_, (foldFill_ok_iff _ _ _ _ _).mpr ⟨hW, rfl⟩,
        _, (foldFill_ok_iff _ _ _ _ _).mpr ⟨hB, rfl⟩, ?_⟩
      rw [if_pos hp]
      exact (foldFill_ok_iff _ _ _ _ _).mpr ⟨hU, by rw [incrList_append, incrList_append]⟩
  · rw [rowLimbs_zero f t row hp]
    constructor
    · rintro ⟨m1, h1, m2, h2, h3⟩
      rw [if_neg hp, except_pure] at h3
      obtain rfl : m2 = m' := Except.ok.inj h3
      obtain ⟨h1a, rfl⟩ := (foldFill_ok_iff _ _ _ _ _).mp h1
      obtain ⟨h2a, rfl⟩ := (foldFill_ok_iff _ _ _ _ _).mp h2
      refine ⟨?_, by rw [incrList_append]⟩
      intro x hx
      rcases List.mem_append.mp hx with hx | hx
      · obtain ⟨c, hc, hxc⟩ := List.mem_flatMap.mp hx
        exact h1a c hc x hxc
      · obtain ⟨c, hc, hxc⟩ := List.mem_flatMap.mp hx
        exact h2a c hc x hxc
    · rintro ⟨hall, rfl⟩
      have hW : ∀ c ∈ Range256Chip.CHECKED_WORDS, ∀ x ∈ t.wordLimbs row c, x < 256 :=
        fun c hc x hxc => hall x (List.mem_append.mpr
          (Or.inl (List.mem_flatMap.mpr ⟨c, hc, hxc⟩)))
      have hB : ∀ c ∈ Range256Chip.CHECKED_BYTES, ∀ x ∈ t.byteLimbs row c, x < 256 :=
        fun c hc x hxc => hall x (List.mem_append.mpr
          (Or.inr (List.mem_flatMap.mpr ⟨c, hc, hxc⟩)))
      refine ⟨_, (foldFill_ok_iff _ _ _ _ _).mpr ⟨hW, rfl⟩,
        _, (foldFill_ok_iff _ _ _ _ _).mpr ⟨hB, rfl⟩, ?_⟩
      rw [if_neg hp, except_pure, incrList_append]

theorem sweep_ok_iff (mode : BuildMode) (f : PredFn) (t : TracesBuilder)
    (m m' : Multiplicity) :
    sweep mode f t m = .ok m' ↔
      ((∀ x ∈ allLimbs f t, x < 256) ∧ m' = incrList (allLimbs f t) m) := by
  unfold sweep allLimbs
  rw [foldlM_incr_ok_iff (sweepRow mode f t) (fun r => ∀ x ∈ rowLimbs f t r, x < 256)
    (rowLimbs f t) (fun r m m' => sweepRow_ok_iff mode f t m m' r)]
  constructor
  · rintro ⟨h1, rfl⟩
    exact ⟨fun x hx => by
      obtain ⟨r, hr, hxr⟩ := List.mem_flatMap.mp hx
      exact h1 r hr x hxr, rfl⟩
  · rintro ⟨h1, rfl⟩
    exact ⟨fun r hr x hxr => h1 x (List.mem_flatMap.mpr ⟨r, hr, hxr⟩), rfl⟩

theorem except_error_bind {ε α β : Type} (e : ε) (g : α → Except ε β) :
    (Except.error e : Except ε α) >>= g = .error e := rfl

theorem except_ok_bind {ε α β : Type} (a : α) (g : α → Except ε β) :
    (Except.ok a : Except ε α) >>= g = g a := rfl

theorem fillMainColsAux_test_error (idx : ℕ) (l : List ℕ) (m : Multiplicity)
    (e : RangeError) (h : fillMainColsAux BuildMode.test idx l m = .error e) :
    e = RangeError.indexOutOfBounds := by
  induction l generalizing idx m with
  | nil => simp [fillMainColsAux] at h
  | cons v rest ih =>
    rw [fillMainColsAux_cons] at h
    have hc : ¬(BuildMode.test = BuildMode.nonTest ∧ 256 ≤ v) := fun hh => by cases hh.1
    rw [if_neg hc] at h
    by_cases hv : v < 256
    · rw [dif_pos hv] at h
      exact ih _ _ h
    · rw [dif_neg hv] at h
      exact (Except.error.inj h).symm

theorem fillMainColsAux_nonTest_error (idx : ℕ) (l : List ℕ) (m : Multiplicity)
    (e : RangeError) (h : fillMainColsAux BuildMode.nonTest idx l m = .error e) :
    ∃ i, e = RangeError.assertionFailed i := by
  induction l generalizing idx m with
  | nil => simp [fillMainColsAux] at h
  | cons v rest ih =>
    rw [fillMainColsAux_cons] at h
    by_cases hc : BuildMode.nonTest = BuildMode.nonTest ∧ 256 ≤ v
    · rw [if_pos hc] at h
      exact ⟨idx, (Except.error.inj h).symm⟩
    · have hv : v < 256 := by
        by_contra hvv
        exact hc ⟨rfl, by omega⟩
      rw [if_neg hc, dif_pos hv] at h
      exact ih _ _ h

theorem foldlM_error_shape {α : Type}
    (step : Multiplicity → α → Except RangeError Multiplicity)
    (Q : RangeError → Prop)
    (hstep : ∀ m a e, step m a = .error e → Q e)
    (l : List α) (m : Multiplicity) (e : RangeError)
    (h : l.foldlM step m = .error e) : Q e := by
  induction l generalizing m with
  | nil => simp [List.foldlM, except_pure] at h
  | cons a as ih =>
    rw [List.foldlM_cons] at h
    cases hs : step m a with
    | error e2 =>
      rw [hs, except_error_bind] at h
      obtain rfl := Except.error.inj h
      exact hstep m a _ hs
    | ok m1 =>
      rw [hs, except_ok_bind] at h
      exact ih m1 h

theorem sweepRow_error_shape (mode : BuildMode) (f : PredFn) (t : TracesBuilder)
    (Q : RangeError → Prop)
    (hfill : ∀ idx l m e, fillMainColsAux mode idx l m = .error e → Q e)
    (m : Multiplicity) (row : ℕ) (e : RangeError)
    (h : sweepRow mode f t m row = .error e) : Q e := by
  have hstep : ∀ (m : Multiplicity) (c : Column) (e : RangeError) (l : List ℕ),
      fill_main_cols mode l m = .error e → Q e := fun m _ e l hh => hfill 0 l m e hh
  rw [sweepRow_eq] at h
  cases h1 : Range256Chip.CHECKED_WORDS.foldlM
      (fun m c => fill_main_cols mode (t.wordLimbs row c) m) m with
  | error e1 =>
    rw [h1, except_error_bind] at h
    obtain rfl := Except.error.inj h
    exact foldlM_error_shape _ Q (fun m c e => hstep m c e _) _ _ _ h1
  | ok m1 =>
    rw [h1, except_ok_bind] at h
    cases h2 : Range256Chip.CHECKED_BYTES.foldlM
        (fun m c => fill_main_cols mode (t.byteLimbs row c) m) m1 with
    | error e2 =>
      rw [h2, except_error_bind] at h
      obtain rfl := Except.error.inj h
      exact foldlM_error_shape _ Q (fun m c e => hstep m c e _) _ _ _ h2
    | ok m2 =>
      rw [h2, except_ok_bind] at h
      by_cases hp : IsTypeU.read_from_traces_builder f t row ≠ 0
      · rw [if_pos hp] at h
        exact foldlM_error_shape _ Q (fun m c e => hstep m c e _) _ _ _ h
      · rw [if_neg hp, except_pure] at h
        cases h

theorem sweep_test_error (f : PredFn) (t : TracesBuilder) (m : Multiplicity)
    (e : RangeError) (h : sweep BuildMode.test f t m = .error e) :
    e = RangeError.indexOutOfBounds :=
  foldlM_error_shape _ (· = RangeError.indexOutOfBounds)
    (fun m row e hh =>
      sweepRow_error_shape BuildMode.test f t _ (fillMainColsAux_test_error) m row e hh)
    _ m e h

theorem sweep_nonTest_error (f : PredFn) (t : TracesBuilder) (m : Multiplicity)
    (e : RangeError) (h : sweep BuildMode.nonTest f t m = .error e) :
    ∃ i, e = RangeError.assertionFailed i :=
  foldlM_error_shape _ (fun e => ∃ i, e = RangeError.assertionFailed i)
    (fun m row e hh =>
      sweepRow_error_shape BuildMode.nonTest f t _ (fillMainColsAux_nonTest_error) m row e hh)
    _ m e h

theorem sweep_oor_error (mode : BuildMode) (f : PredFn) (t : TracesBuilder)
    (m₀ : Multiplicity) (hx : ∃ x ∈ allLimbs f t, 256 ≤ x) :
    ∃ e, sweep mode f t m₀ = .error e := by
  cases h : sweep mode f t m₀ with
  | ok m =>
    obtain ⟨hall, _⟩ := (sweep_ok_iff mode f t m₀ m).mp h
    obtain ⟨x, hx1, hx2⟩ := hx
    exact absurd (hall x hx1) (by omega)
  | error e => exact ⟨e, rfl⟩

/-! ## Counting: from the sweep to the exact occurrence count -/

theorem count_flatMap {α : Type} (l : List α) (g : α → List ℕ) (v : ℕ) :
    ((l.flatMap g).count v) = (l.map fun a => (g a).count v).sum := by
  induction l with
  | nil => simp
  | cons a as ih => simp [List.flatMap_cons, List.count_append, ih]

theorem listSumRange {M : Type} [AddCommMonoid M] (n : ℕ) (h : ℕ → M) :
    ((List.range n).map h).sum = ∑ i ∈ Finset.range n, h i := by
  induction n with
  | zero => simp
  | succ n ih =>
    rw [List.range_succ, List.map_append, List.sum_append, Finset.sum_range_succ, ih]
    simp

theorem rowLimbs_count (f : PredFn) (t : TracesBuilder) (row : ℕ) (v : ℕ)
    (hpred : IsTypeU.read_from_traces_builder f t row = 0
      ∨ IsTypeU.read_from_traces_builder f t row = 1) :
    (rowLimbs f t row).count v =
      (Range256Chip.CHECKED_WORDS.map fun c => (t.wordLimbs row c).count v).sum
      + (Range256Chip.CHECKED_BYTES.map fun c => (t.byteLimbs row c).count v).sum
      + (if IsTypeU.read_from_traces_builder f t row = 1 then
          (Range256Chip.TYPE_U_CHECKED_BYTES.map fun c => (t.byteLimbs row c).count v).sum
        else 0) := by
  rcases hpred with h0 | h1
  · rw [rowLimbs_zero f t row (by simp [h0]), if_neg (by simp [h0])]
    simp [List.count_append, count_flatMap]
  · rw [rowLimbs_pos f t row (by simp [h1]), if_pos h1]
    simp [List.count_append, count_flatMap]
    omega

theorem allLimbs_count (f : PredFn) (t : TracesBuilder) (v : ℕ)
    (hpred : ∀ row, IsTypeU.read_from_traces_builder f t row = 0
      ∨ IsTypeU.read_from_traces_builder f t row = 1) :
    (allLimbs f t).count v = occCount f t v := by
  rw [allLimbs, count_flatMap, listSumRange, occCount]
  exact Finset.sum_congr rfl fun row _ => rowLimbs_count f t row v (hpred row)

theorem allLimbs_bound (f : PredFn) (t : TracesBuilder)
    (hcell : ∀ c row k, t.cell c row k < 256) :
    ∀ x ∈ allLimbs f t, x < 256 := by
  intro x hx
  rw [allLimbs] at hx
  obtain ⟨r, hr, hx⟩ := List.mem_flatMap.mp hx
  rw [rowLimbs] at hx
  rcases List.mem_append.mp hx with hx | hx
  · rcases List.mem_append.mp hx with hx | hx
    · obtain ⟨c, hc, hx⟩ := List.mem_flatMap.mp hx
      rw [TracesBuilder.wordLimbs] at hx
      obtain ⟨k, rfl⟩ := Set.mem_range.mp ((List.mem_ofFn _ _).mp hx)
      exact hcell c r k
    · obtain ⟨c, hc, hx⟩ := List.mem_flatMap.mp hx
      rw [TracesBuilder.byteLimbs] at hx
      obtain rfl : x = t.cell c r 0 := List.mem_singleton.mp hx
      exact hcell c r 0
  · by_cases hp : IsTypeU.read_from_traces_builder f t r ≠ 0
    · rw [if_pos hp] at hx
      obtain ⟨c, hc, hx⟩ := List.mem_flatMap.mp hx
      rw [TracesBuilder.byteLimbs] at hx
      obtain rfl : x = t.cell c r 0 := List.mem_singleton.mp hx
      exact hcell c r 0
    · rw [if_neg hp] at hx
      cases hx

theorem fill_main_trace_last (mode : BuildMode) (f : PredFn) (t : TracesBuilder)
    (m : Multiplicity) :
    fill_main_trace mode f t (t.numRows - 1) m
      = (sweep mode f t m).map fun m' => (t, m') := by
  rw [fill_main_trace, if_neg (by omega)]

/-! ## Concrete traces used as witnesses -/

/-- A trivial predicate (an `IsTypeU` combination that is identically 0). -/
def predZero : PredFn := fun _ => 0

/-- A 16-row trace whose checked cells are all 0 (all in range). -/
def trivTrace : TracesBuilder := ⟨16, fun _ _ _ => 0⟩

/-- The multiplicity table produced by a successful sweep of `trivTrace`. -/
def trivMult : Multiplicity := incrList (allLimbs predZero trivTrace) zeroMultiplicity

/-- A 16-row trace with an out-of-range value 256 injected directly into
the `ValueB` column of row 0, mirroring
`test_range256_chip_fail_out_of_range_release`. -/
def oorTrace : TracesBuilder :=
  ⟨16, fun c row _ => if c = Column.ValueB ∧ row = 0 then 256 else 0⟩

/-- The fill pass on the all-zero trace succeeds and produces `trivMult`
(no cell evaluation needed: every cell is 0 < 256). -/
theorem trivTrace_fill :
    fill_main_trace BuildMode.test predZero trivTrace (trivTrace.numRows - 1)
      zeroMultiplicity = .ok (trivTrace, trivMult) := by
  rw [fill_main_trace_last]
  rw [(sweep_ok_iff BuildMode.test predZero trivTrace zeroMultiplicity trivMult).mpr
    ⟨allLimbs_bound predZero trivTrace fun c row k => by norm_num [trivTrace], rfl⟩]
  rfl

/-! ## Claims about the multiplicity fill -/

/-- **C1**: after the full fill pass performed by `fill_main_trace`, for
every value `v` in `[0,255]`, `multiplicity[v]` equals the exact number of
(row, column, limb) occurrences of `v` among the 31 word-checked columns
(4 limbs each), the 9 byte-checked columns, and the 2 conditionally-checked
columns, counting the latter only on rows whose `IsTypeU` predicate is 1.
(The predicate is 0/1-valued by construction, which is the `hpred`
hypothesis on the modelled predicate function.) -/
theorem c1_multiplicity_exact_count (mode : BuildMode) (f : PredFn)
    (t : TracesBuilder) (m : Multiplicity)
    (hpred : ∀ row, IsTypeU.read_from_traces_builder f t row = 0
      ∨ IsTypeU.read_from_traces_builder f t row = 1)
    (hfill : fill_main_trace mode f t (t.numRows - 1) zeroMultiplicity = .ok (t, m)) :
    ∀ v : Fin 256, m v = occCount f t (v : ℕ) := by
  rw [fill_main_trace_last, except_map_ok] at hfill
  obtain ⟨m1, hok, hpair⟩ := hfill
  obtain rfl : m1 = m := congrArg Prod.snd hpair
  obtain ⟨hall, rfl⟩ := (sweep_ok_iff _ _ _ _ _).mp hok
  intro v
  rw [incrList_count, allLimbs_count f t (v : ℕ) hpred]
  simp [zeroMultiplicity]

/-- **C1 witness**: on the all-zero 16-row trace the fill pass succeeds and
the resulting table satisfies the exact-count property. -/
theorem c1_witness :
    (∀ row, IsTypeU.read_from_traces_builder predZero trivTrace row = 0
      ∨ IsTypeU.read_from_traces_builder predZero trivTrace row = 1)
    ∧ fill_main_trace BuildMode.test predZero trivTrace (trivTrace.numRows - 1)
        zeroMultiplicity = .ok (trivTrace, trivMult)
    ∧ ∀ v : Fin 256, trivMult v = occCount predZero trivTrace (v : ℕ) :=
  ⟨fun _ => Or.inl rfl, trivTrace_fill,
   c1_multiplicity_exact_count BuildMode.test predZero trivTrace trivMult
     (fun _ => Or.inl rfl) trivTrace_fill⟩

/-- **C2**: for a driver call with `row_idx < num_rows`, `fill_main_trace`
is a no-op (builder and multiplicity table unchanged) unless
`row_idx + 1 = num_rows`; on that single call it performs the full second
pass `sweep` over all rows, which increments the table once per checked
limb. -/
theorem c2_noop_until_last_row (mode : BuildMode) (f : PredFn)
    (t : TracesBuilder) (row : ℕ) (m : Multiplicity) (hrow : row < t.numRows) :
    (row + 1 ≠ t.numRows → fill_main_trace mode f t row m = .ok (t, m))
    ∧ (row + 1 = t.numRows →
        fill_main_trace mode f t row m = (sweep mode f t m).map fun m' => (t, m'))
    ∧ (∀ m', sweep mode f t m = .ok m' →
        ∀ v : Fin 256, m' v = m v + (allLimbs f t).count (v : ℕ)) := by
  refine ⟨fun hne => ?_, fun heq => ?_, fun m' hok v => ?_⟩
  · rw [fill_main_trace, if_pos (by omega)]
  · rw [fill_main_trace, if_neg (by omega)]
  · obtain ⟨_, rfl⟩ := (sweep_ok_iff mode f t m m').mp hok
    exact incrList_count _ _ _

/-- **C2 witness**: on the 16-row trace, the call at row 3 is a no-op, the
call at row 15 runs the sweep, and the sweep counts every checked limb. -/
theorem c2_witness :
    fill_main_trace BuildMode.test predZero trivTrace 3 zeroMultiplicity
        = .ok (trivTrace, zeroMultiplicity)
    ∧ fill_main_trace BuildMode.test predZero trivTrace 15 zeroMultiplicity
        = ((sweep BuildMode.test predZero trivTrace zeroMultiplicity).map
            fun m' => (trivTrace, m'))
    ∧ ∀ m', sweep BuildMode.test predZero trivTrace zeroMultiplicity = .ok m' →
        ∀ v : Fin 256, m' v = zeroMultiplicity v
          + (allLimbs predZero trivTrace).count (v : ℕ) :=
  ⟨(c2_noop_until_last_row BuildMode.test predZero trivTrace 3 zeroMultiplicity
      (by decide)).1 (by decide),
   (c2_noop_until_last_row BuildMode.test predZero trivTrace 15 zeroMultiplicity
      (by decide)).2.1 (by decide),
   (c2_noop_until_last_row BuildMode.test predZero trivTrace 15 zeroMultiplicity
      (by decide)).2.2⟩

/-- **C9**: the sweep trigger is `row_idx + 1 ≥ num_rows`, not equality:
any call with `num_rows ≤ row_idx + 1` runs the full sweep, and running the
trigger call a second time (with `row_idx = num_rows − 1` or any
`row_idx ≥ num_rows`) doubles every multiplicity count. -/
theorem c9_trigger_ge_not_idempotent (mode : BuildMode) (f : PredFn)
    (t : TracesBuilder) (row : ℕ) (m : Multiplicity)
    (htrig : t.numRows ≤ row + 1)
    (hfirst : fill_main_trace mode f t (t.numRows - 1) zeroMultiplicity = .ok (t, m)) :
    fill_main_trace mode f t row m = ((sweep mode f t m).map fun m' => (t, m'))
    ∧ ∃ m₂, fill_main_trace mode f t row m = .ok (t, m₂) ∧ ∀ v, m₂ v = 2 * m v := by
  have h1 : fill_main_trace mode f t row m
      = (sweep mode f t m).map fun m' => (t, m') := by
    rw [fill_main_trace, if_neg (by omega)]
  refine ⟨h1, ?_⟩
  rw [fill_main_trace_last, except_map_ok] at hfirst
  obtain ⟨m1, hok, hpair⟩ := hfirst
  obtain rfl : m1 = m := congrArg Prod.snd hpair
  obtain ⟨hall, rfl⟩ := (sweep_ok_iff _ _ _ _ _).mp hok
  have hok2 : sweep mode f t (incrList (allLimbs f t) zeroMultiplicity)
      = .ok (incrList (allLimbs f t) (incrList (allLimbs f t) zeroMultiplicity)) :=
    (sweep_ok_iff mode f t _ _).mpr ⟨hall, rfl⟩
  refine ⟨_, by rw [h1, hok2]; rfl, fun v => ?_⟩
  rw [incrList_count, incrList_count]
  simp [zeroMultiplicity]
  omega

/-- **C9 witness**: on the all-zero 16-row trace, a second trigger call at
`row_idx = 20 ≥ num_rows` runs the sweep again and doubles every count. -/
theorem c9_witness :
    16 ≤ 20 + 1
    ∧ fill_main_trace BuildMode.test predZero trivTrace (trivTrace.numRows - 1)
        zeroMultiplicity = .ok (trivTrace, trivMult)
    ∧ ∃ m₂, fill_main_trace BuildMode.test predZero trivTrace 20 trivMult
        = .ok (trivTrace, m₂) ∧ ∀ v, m₂ v = 2 * trivMult v :=
  ⟨by decide, trivTrace_fill,
   (c9_trigger_ge_not_idempotent BuildMode.test predZero trivTrace 20 trivMult
      (by decide) trivTrace_fill).2⟩

/-- **C10**: `fill_main_cols` indexes the fixed 256-entry multiplicity
array directly with the limb's integer value; in test builds (assertion
compiled out) a limb ≥ 256 produces an index-out-of-bounds failure, never a
silently wrong count, and in every build mode a successful call only ever
increments entries at indices 0..255, by exactly the number of occurrences. -/
theorem c10_direct_indexing (limbs : List ℕ) (m : Multiplicity) :
    ((∃ x ∈ limbs, 256 ≤ x) →
      fill_main_cols BuildMode.test limbs m = .error RangeError.indexOutOfBounds)
    ∧ (∀ mode m', fill_main_cols mode limbs m = .ok m' →
        ∀ v : Fin 256, m' v = m v + limbs.count (v : ℕ)) := by
  constructor
  · rintro ⟨x, hx, hx256⟩
    cases h : fill_main_cols BuildMode.test limbs m with
    | ok m' =>
      obtain ⟨hall, _⟩ := (fill_main_cols_ok_iff _ _ _ _).mp h
      exact absurd (hall x hx) (by omega)
    | error e =>
      rw [fillMainColsAux_test_error 0 limbs m e h]
  · intro mode m' h v
    obtain ⟨_, rfl⟩ := (fill_main_cols_ok_iff _ _ _ _).mp h
    exact incrList_count _ _ _

/-- **C10 witness**: `[256]` triggers the out-of-bounds failure, and
`[3]` is counted exactly. -/
theorem c10_witness :
    fill_main_cols BuildMode.test [256] zeroMultiplicity
        = .error RangeError.indexOutOfBounds
    ∧ ∀ v : Fin 256, incrList [3] zeroMultiplicity v
        = zeroMultiplicity v + ([3] : List ℕ).count (v : ℕ) :=
  ⟨(c10_direct_indexing [256] zeroMultiplicity).1 (by decide),
   (c10_direct_indexing [3] zeroMultiplicity).2 BuildMode.test
     (incrList [3] zeroMultiplicity) rfl⟩

/-- **C3 counterexample**: with an out-of-range value injected directly as
a field element (value 256 in `ValueB`), the pipeline *does* crash in the
assertion-free (test/"production-style") build: the fill pass aborts with
an index-out-of-bounds failure before any claimed sum exists, refuting
"the pipeline does not crash". -/
theorem c3_counterexample :
    fill_main_trace BuildMode.test predZero oorTrace 15 zeroMultiplicity
      = .error RangeError.indexOutOfBounds := rfl

/-- **C3 amended**: if at least one checked limb lies outside `[0,255]`,
then in the build with the explicit assertion compiled out the fill pass
fails with an index-out-of-bounds error at the multiplicity table, so no
trace (and hence no claimed sum) is ever produced and verification cannot
succeed. -/
theorem c3_amended_fill_aborts (f : PredFn) (t : TracesBuilder)
    (m₀ : Multiplicity) (hx : ∃ x ∈ allLimbs f t, 256 ≤ x) :
    fill_main_trace BuildMode.test f t (t.numRows - 1) m₀
      = .error RangeError.indexOutOfBounds := by
  rw [fill_main_trace_last]
  obtain ⟨e, he⟩ := sweep_oor_error BuildMode.test f t m₀ hx
  rw [he, sweep_test_error f t m₀ e he]
  rfl

/-- **C3 amended witness**: the injected trace indeed contains an
out-of-range limb and the fill pass aborts on it. -/
theorem c3_amended_witness :
    (∃ x ∈ allLimbs predZero oorTrace, 256 ≤ x)
    ∧ fill_main_trace BuildMode.test predZero oorTrace (oorTrace.numRows - 1)
        zeroMultiplicity = .error RangeError.indexOutOfBounds :=
  ⟨by decide, c3_amended_fill_aborts predZero oorTrace zeroMultiplicity (by decide)⟩

/-- **C4 counterexample**: production builds are `cfg(not(test))`, where
the explicit assertion is *not* compiled out: on the injected trace the
production-mode fill crashes with an assertion failure at the offending
limb, refuting "production builds do not crash the pipeline". -/
theorem c4_counterexample :
    fill_main_trace BuildMode.nonTest predZero oorTrace 15 zeroMultiplicity
      = .error (RangeError.assertionFailed 0) := rfl

/-- **C4 amended**: an out-of-range checked limb surfaces immediately and
deterministically in *every* build mode: non-test builds (including
production/release, since the assertion is gated on `cfg(not(test))`, not
on debug) fail the explicit bounds assertion at the offending limb, and
test builds fail with an index-out-of-bounds on the multiplicity table;
in no build does the defect flow on into the multiset-equality sum. -/
theorem c4_amended_every_build_fails_fast (mode : BuildMode) (f : PredFn)
    (t : TracesBuilder) (m₀ : Multiplicity)
    (hx : ∃ x ∈ allLimbs f t, 256 ≤ x) :
    (∃ e, fill_main_trace mode f t (t.numRows - 1) m₀ = .error e)
    ∧ (mode = BuildMode.test →
        fill_main_trace mode f t (t.numRows - 1) m₀
          = .error RangeError.indexOutOfBounds)
    ∧ (mode = BuildMode.nonTest →
        ∃ i, fill_main_trace mode f t (t.numRows - 1) m₀
          = .error (RangeError.assertionFailed i)) := by
  obtain ⟨e, he⟩ := sweep_oor_error mode f t m₀ hx
  have hmap : fill_main_trace mode f t (t.numRows - 1) m₀ = .error e := by
    rw [fill_main_trace_last, he]
    rfl
  refine ⟨⟨e, hmap⟩, fun hm => ?_, fun hm => ?_⟩
  · subst hm
    rw [hmap, sweep_test_error f t m₀ e he]
  · subst hm
    obtain ⟨i, hi⟩ := sweep_nonTest_error f t m₀ e he
    exact ⟨i, by rw [hmap, hi]⟩

/-- **C4 amended witness**: on the injected trace the non-test
(production) build fails the assertion. -/
theorem c4_amended_witness :
    (∃ x ∈ allLimbs predZero oorTrace, 256 ≤ x)
    ∧ ∃ i, fill_main_trace BuildMode.nonTest predZero oorTrace
        (oorTrace.numRows - 1) zeroMultiplicity
          = .error (RangeError.assertionFailed i) :=
  ⟨by decide,
   (c4_amended_every_build_fails_fast BuildMode.nonTest predZero oorTrace
      zeroMultiplicity (by decide)).2.2 rfl⟩

/-! ## Finalized traces and the batched predicate path -/

/-- The finalized, immutable trace: column data reorganized into lanes of
16 consecutive rows for SIMD access (`LOG_N_LANES = 4`).  `lane c l i k`
is limb `k` of column `c` at row `16·l + i`. -/
structure FinalizedTraces where
  numLanes : ℕ
  lane : Column → ℕ → Fin 16 → Fin 4 → ℕ

/-- `TracesBuilder::finalize`: reorganize the builder's rows into 16-row
lanes. -/
def TracesBuilder.finalize (t : TracesBuilder) : FinalizedTraces :=
  ⟨t.numRows / 16, fun c l i k => t.cell c (16 * l + i) k⟩

/-- Reading one scalar cell of a finalized trace at a row index: lane
`r / 16`, slot `r % 16`. -/
def FinalizedTraces.cellAtRow (ft : FinalizedTraces) (c : Column) (k : Fin 4) (r : ℕ) : ℕ :=
  ft.lane c (r / 16) ⟨r % 16, Nat.mod_lt r (by norm_num)⟩ k

/-- `virtual_column::IsTypeU::read_from_finalized_traces`: evaluate the
derived predicate on one 16-row lane of the finalized trace (the packed
SIMD evaluation, one value per slot of the lane). -/
def IsTypeU.read_from_finalized_traces (f : PredFn) (ft : FinalizedTraces)
    (vecRow : ℕ) : Fin 16 → ℕ :=
  fun i => f (fun c k => ft.lane c vecRow i k)

/-- The batched predicate evaluated at the containing lane of a row. -/
def predAtRow (f : PredFn) (ft : FinalizedTraces) (r : ℕ) : ℕ :=
  IsTypeU.read_from_finalized_traces f ft (r / 16) ⟨r % 16, Nat.mod_lt r (by norm_num)⟩

theorem finalize_cellAtRow (t : TracesBuilder) (c : Column) (k : Fin 4) (r : ℕ) :
    t.finalize.cellAtRow c k r = t.cell c r k := by
  show t.cell c (16 * (r / 16) + r % 16) k = t.cell c r k
  rw [Nat.div_add_mod]

theorem predAtRow_finalize (f : PredFn) (t : TracesBuilder) (r : ℕ) :
    predAtRow f t.finalize r = IsTypeU.read_from_traces_builder f t r := by
  show f (fun c k => t.cell c (16 * (r / 16) + r % 16) k) = f (fun c k => t.cell c r k)
  rw [Nat.div_add_mod]

/-- **C8**: for every row of a valid trace, evaluating the derived
`IsTypeU` predicate via the scalar path (`read_from_traces_builder` at the
row index) and via the batched path (`read_from_finalized_traces` at the
containing 16-row lane, slot `row % 16`) yields identical results. -/
theorem c8_predicate_paths_agree (f : PredFn) (t : TracesBuilder) (row : ℕ)
    (h16 : 16 ∣ t.numRows) (hrow : row < t.numRows) :
    IsTypeU.read_from_finalized_traces f t.finalize (row / 16)
        ⟨row % 16, Nat.mod_lt row (by norm_num)⟩
      = IsTypeU.read_from_traces_builder f t row :=
  predAtRow_finalize f t row

/-- **C8 witness**: both paths agree on row 5 of the 16-row trace. -/
theorem c8_witness :
    (16 ∣ trivTrace.numRows) ∧ 5 < trivTrace.numRows
    ∧ IsTypeU.read_from_finalized_traces predZero trivTrace.finalize (5 / 16)
        ⟨5 % 16, Nat.mod_lt 5 (by norm_num)⟩
      = IsTypeU.read_from_traces_builder predZero trivTrace 5 :=
  ⟨⟨1, rfl⟩, by decide,
   c8_predicate_paths_agree predZero trivTrace 5 ⟨1, rfl⟩ (by decide)⟩

/-! ## The interaction trace (logup columns) -/

/-- One written logup fraction (`write_frac(numerator, denominator)`),
over the external proof system's field, modelled as an arbitrary field. -/
structure Frac (K : Type) where
  num : K
  den : K

section Interaction

variable {K : Type} [Field K]

/-- Modelled from the spec: `lookup_element.combine` of the external stwo
relation machinery, applied to the arity-1 tuple `[value]`, yields the
denominator `challenge − value`. -/
def combine (ch v : K) : K := ch - v

/-- One logup interaction column, listed row by row: the source writes one
packed fraction per 16-row lane (`vec_row`), each packed write carrying
the 16 per-row fractions `numerator / (challenge − value)` of rows
`16·vec_row .. 16·vec_row + 15`. -/
def fracColumn (numLanes : ℕ) (num : ℕ → K) (val : ℕ → ℕ) (ch : K) : List (Frac K) :=
  (List.range (16 * numLanes)).map fun r => ⟨num r, combine ch ((val r : ℕ) : K)⟩

/-- `check_bytes`: one interaction column per limb of the base column,
each fraction with numerator 1. -/
def check_bytes (numLanes : ℕ) (limbs : List (ℕ → ℕ)) (ch : K) : List (List (Frac K)) :=
  limbs.map fun val => fracColumn numLanes (fun _ => 1) val ch

/-- `Range256Chip::fill_interaction_trace`: the emitted interaction
columns, in emission order — the 4 limbs of each of the 31 word columns,
the 9 byte columns, and the 2 conditional columns whose numerator is the
batched `IsTypeU` evaluation of the row's lane. -/
def fill_interaction_trace (f : PredFn) (ft : FinalizedTraces) (ch : K) :
    List (List (Frac K)) :=
  (Range256Chip.CHECKED_WORDS.flatMap fun c =>
      check_bytes ft.numLanes (List.ofFn fun k : Fin 4 => ft.cellAtRow c k) ch)
  ++ (Range256Chip.CHECKED_BYTES.flatMap fun c =>
      check_bytes ft.numLanes [ft.cellAtRow c 0] ch)
  ++ (Range256Chip.TYPE_U_CHECKED_BYTES.flatMap fun c =>
      [fracColumn ft.numLanes (fun r => ((predAtRow f ft r : ℕ) : K))
        (ft.cellAtRow c 0) ch])

/-- The calls made against the external `LogupTraceGenerator`. -/
inductive LogupEvent (K : Type) where
  | newCol : LogupEvent K
  | writeFrac (vecRow : ℕ) (frac : Fin 16 → Frac K) : LogupEvent K
  | finalizeCol : LogupEvent K

/-- The generator calls made for one interaction column: `new_col`, then
one packed `write_frac` per 16-row lane, then `finalize_col`. -/
def colEvents (numLanes : ℕ) (num : ℕ → K) (val : ℕ → ℕ) (ch : K) :
    List (LogupEvent K) :=
  LogupEvent.newCol
    :: ((List.range numLanes).map fun vr =>
        LogupEvent.writeFrac vr fun i =>
          ⟨num (16 * vr + i), combine ch ((val (16 * vr + i) : ℕ) : K)⟩)
    ++ [LogupEvent.finalizeCol]

/-- The full sequence of `LogupTraceGenerator` calls made by
`fill_interaction_trace`, in program order. -/
def fill_interaction_trace_events (f : PredFn) (ft : FinalizedTraces) (ch : K) :
    List (LogupEvent K) :=
  (Range256Chip.CHECKED_WORDS.flatMap fun c =>
      (List.ofFn fun k : Fin 4 => ft.cellAtRow c k).flatMap fun val =>
        colEvents ft.numLanes (fun _ => 1) val ch)
  ++ (Range256Chip.CHECKED_BYTES.flatMap fun c =>
      colEvents ft.numLanes (fun _ => 1) (ft.cellAtRow c 0) ch)
  ++ (Range256Chip.TYPE_U_CHECKED_BYTES.flatMap fun c =>
      colEvents ft.numLanes (fun r => ((predAtRow f ft r : ℕ) : K))
        (ft.cellAtRow c 0) ch)

def isFinalizeCol : LogupEvent K → Bool
  | .finalizeCol => true
  | _ => false

def isNewCol : LogupEvent K → Bool
  | .newCol => true
  | _ => false

/-- Well-bracketed generator usage: every column opened by `new_col` takes
only `write_frac` calls until it is closed by exactly one `finalize_col`,
and nothing is written or finalized with no column open.  The `Bool`
argument tracks whether a column is currently open. -/
def balancedFrom : Bool → List (LogupEvent K) → Bool
  | false, [] => true
  | true, [] => false
  | false, LogupEvent.newCol :: rest => balancedFrom true rest
  | false, LogupEvent.writeFrac _ _ :: _ => false
  | false, LogupEvent.finalizeCol :: _ => false
  | true, LogupEvent.newCol :: _ => false
  | true, LogupEvent.writeFrac _ _ :: rest => balancedFrom true rest
  | true, LogupEvent.finalizeCol :: rest => balancedFrom false rest

theorem balancedFrom_map_writeFrac (l : List ℕ) (g : ℕ → Fin 16 → Frac K)
    (rest : List (LogupEvent K)) :
    balancedFrom true ((l.map fun vr => LogupEvent.writeFrac vr (g vr)) ++ rest)
      = balancedFrom true rest := by
  induction l with
  | nil => rfl
  | cons a as ih => simpa [balancedFrom] using ih

theorem balancedFrom_colEvents (numLanes : ℕ) (num : ℕ → K) (val : ℕ → ℕ)
    (ch : K) (rest : List (LogupEvent K)) :
    balancedFrom false (colEvents numLanes num val ch ++ rest)
      = balancedFrom false rest := by
  rw [colEvents]
  simp only [List.cons_append, List.append_assoc, List.singleton_append, List.nil_append]
  rw [show ∀ xs : List (LogupEvent K),
        balancedFrom false (LogupEvent.newCol :: xs) = balancedFrom true xs
      from fun xs => rfl]
  rw [balancedFrom_map_writeFrac]
  rfl

theorem balancedFrom_flatMap {α : Type} (l : List α) (g : α → List (LogupEvent K))
    (hg : ∀ a ∈ l, ∀ rest, balancedFrom false (g a ++ rest) = balancedFrom false rest)
    (rest : List (LogupEvent K)) :
    balancedFrom false (l.flatMap g ++ rest) = balancedFrom false rest := by
  induction l with
  | nil => simp
  | cons a as ih =>
    rw [List.flatMap_cons, List.append_assoc, hg a (List.mem_cons_self a as)]
    exact ih fun a ha rest => hg a (List.mem_cons_of_mem _ ha) rest

theorem countP_colEvents_finalize (numLanes : ℕ) (num : ℕ → K) (val : ℕ → ℕ)
    (ch : K) :
    (colEvents numLanes num val ch).countP isFinalizeCol = 1 := by
  rw [colEvents]
  simp [List.countP_cons, List.countP_append, List.countP_map, isFinalizeCol,
    Function.comp, List.countP_false]

theorem countP_colEvents_new (numLanes : ℕ) (num : ℕ → K) (val : ℕ → ℕ) (ch : K) :
    (colEvents numLanes num val ch).countP isNewCol = 1 := by
  rw [colEvents]
  simp [List.countP_cons, List.countP_append, List.countP_map, isNewCol,
    Function.comp, List.countP_false]

theorem length_check_bytes (numLanes : ℕ) (limbs : List (ℕ → ℕ)) (ch : K) :
    (check_bytes numLanes limbs ch).length = limbs.length := by
  rw [check_bytes, List.length_map]

theorem countP_wordBlock_finalize (ft : FinalizedTraces) (c : Column) (ch : K) :
    ((List.ofFn fun k : Fin 4 => ft.cellAtRow c k).flatMap fun val =>
      colEvents ft.numLanes (fun _ => (1 : K)) val ch).countP isFinalizeCol = 4 := by
  rw [List.countP_flatMap, List.map_ofFn, List.sum_ofFn]
  simp [Function.comp_def, countP_colEvents_finalize]

theorem countP_wordBlock_new (ft : FinalizedTraces) (c : Column) (ch : K) :
    ((List.ofFn fun k : Fin 4 => ft.cellAtRow c k).flatMap fun val =>
      colEvents ft.numLanes (fun _ => (1 : K)) val ch).countP isNewCol = 4 := by
  rw [List.countP_flatMap, List.map_ofFn, List.sum_ofFn]
  simp [Function.comp_def, countP_colEvents_new]

/-- **C7 amended**: `fill_interaction_trace` emits exactly
(word-checked columns × limb width) + (byte-checked columns) +
(conditional columns) interaction columns — with the configured lists,
31 × 4 + 9 + 2 = **135** columns (not 126) — and its generator usage is
well bracketed: every `new_col` is matched by exactly one `finalize_col`
(135 of each), so each emitted column is finalized exactly once. -/
theorem c7_amended_column_count (f : PredFn) (ft : FinalizedTraces) (ch : K) :
    (fill_interaction_trace f ft ch).length
        = Range256Chip.CHECKED_WORDS.length * WORD_SIZE
          + Range256Chip.CHECKED_BYTES.length
          + Range256Chip.TYPE_U_CHECKED_BYTES.length
    ∧ (fill_interaction_trace f ft ch).length = 135
    ∧ balancedFrom false (fill_interaction_trace_events f ft ch) = true
    ∧ (fill_interaction_trace_events f ft ch).countP isFinalizeCol = 135
    ∧ (fill_interaction_trace_events f ft ch).countP isNewCol = 135 := by
  have hlen : (fill_interaction_trace f ft ch).length = 135 := by
    rw [fill_interaction_trace]
    simp only [List.length_append, List.length_flatMap, Function.comp_def,
      length_check_bytes, List.length_ofFn, List.length_singleton]
    decide
  refine ⟨by rw [hlen]; decide, hlen, ?_, ?_, ?_⟩
  · have hW : ∀ c ∈ Range256Chip.CHECKED_WORDS, ∀ rest,
        balancedFrom false
          (((List.ofFn fun k : Fin 4 => ft.cellAtRow c k).flatMap fun val =>
            colEvents ft.numLanes (fun _ => 1) val ch) ++ rest)
          = balancedFrom false rest :=
      fun c _ rest => balancedFrom_flatMap _ _
        (fun val _ rest => balancedFrom_colEvents ft.numLanes _ val ch rest) rest
    have hB : ∀ c ∈ Range256Chip.CHECKED_BYTES, ∀ rest,
        balancedFrom false
          (colEvents ft.numLanes (fun _ => 1) (ft.cellAtRow c 0) ch ++ rest)
          = balancedFrom false rest :=
      fun c _ rest => balancedFrom_colEvents _ _ _ _ rest
    have hU : ∀ c ∈ Range256Chip.TYPE_U_CHECKED_BYTES, ∀ rest,
        balancedFrom false
          (colEvents ft.numLanes (fun r => ((predAtRow f ft r : ℕ) : K))
            (ft.cellAtRow c 0) ch ++ rest)
          = balancedFrom false rest :=
      fun c _ rest => balancedFrom_colEvents _ _ _ _ rest
    rw [fill_interaction_trace_events, List.append_assoc]
    rw [balancedFrom_flatMap _ _ hW]
    rw [balancedFrom_flatMap _ _ hB]
    have hU' := balancedFrom_flatMap _ _ hU []
    rw [List.append_nil] at hU'
    rw [hU']
    rfl
  · rw [fill_interaction_trace_events]
    simp only [List.countP_append]
    rw [List.countP_flatMap, List.countP_flatMap, List.countP_flatMap]
    simp only [Function.comp_def, countP_wordBlock_finalize, countP_colEvents_finalize]
    decide
  · rw [fill_interaction_trace_events]
    simp only [List.countP_append]
    rw [List.countP_flatMap, List.countP_flatMap, List.countP_flatMap]
    simp only [Function.comp_def, countP_wordBlock_new, countP_colEvents_new]
    decide

/-! ## Constraint emission -/

/-- `Range256Chip::add_constraints`, evaluated at one row of the trace:
the relation contributions registered for the AIR, in registration order —
for every word column each of its 4 limbs with numerator
`SecureField::one()`, every byte column with numerator 1, and every
conditional column with the evaluated `IsTypeU` numerator — each with the
denominator `challenge − value` formed by the shared relation `combine`
(`IsTypeU::eval` is the same modelled predicate function, evaluated on the
row's cells). -/
def add_constraints (f : PredFn) (ft : FinalizedTraces) (ch : K) (row : ℕ) :
    List (Frac K) :=
  (Range256Chip.CHECKED_WORDS.flatMap fun c =>
      (List.ofFn fun k : Fin 4 => ft.cellAtRow c k row).map fun value =>
        Frac.mk (1 : K) (combine ch ((value : ℕ) : K)))
  ++ (Range256Chip.CHECKED_BYTES.map fun c =>
      Frac.mk (1 : K) (combine ch ((ft.cellAtRow c 0 row : ℕ) : K)))
  ++ (Range256Chip.TYPE_U_CHECKED_BYTES.map fun c =>
      Frac.mk ((predAtRow f ft row : ℕ) : K)
        (combine ch ((ft.cellAtRow c 0 row : ℕ) : K)))

theorem fracColumn_getElem (numLanes : ℕ) (num : ℕ → K) (val : ℕ → ℕ) (ch : K)
    (r : ℕ) (hr : r < 16 * numLanes) :
    (fracColumn numLanes num val ch)[r]?
      = some ⟨num r, combine ch ((val r : ℕ) : K)⟩ := by
  rw [fracColumn, List.getElem?_map, List.getElem?_range hr]
  rfl

theorem flatMap_single {α β : Type} (l : List α) (g : α → β) :
    (l.flatMap fun a => [g a]) = l.map g := by
  induction l with
  | nil => rfl
  | cons a as ih => simp [List.flatMap_cons, ih]

/-- **C6**: the relation contributions registered by `add_constraints` —
columns covered, order, numerators (1, or the evaluated predicate), and
denominators `challenge − value` — mirror exactly, entry by entry at every
row, the fraction contributions written by `fill_interaction_trace`. -/
theorem c6_constraints_mirror_interaction (f : PredFn) (ft : FinalizedTraces)
    (ch : K) (row : ℕ) (hrow : row < 16 * ft.numLanes) :
    (fill_interaction_trace f ft ch).map (fun col => col[row]?)
      = (add_constraints f ft ch row).map some := by
  rw [fill_interaction_trace, add_constraints]
  rw [List.map_append, List.map_append, List.map_append, List.map_append]
  congr 1
  congr 1
  · rw [List.map_flatMap, List.map_flatMap]
    refine congrArg (List.flatMap Range256Chip.CHECKED_WORDS) (funext fun c => ?_)
    rw [check_bytes, List.map_map, List.map_map, List.map_ofFn, List.map_ofFn]
    refine congrArg List.ofFn (funext fun k => ?_)
    exact fracColumn_getElem ft.numLanes _ _ ch row hrow
  · rw [List.map_flatMap]
    rw [show (fun c => (check_bytes ft.numLanes [ft.cellAtRow c 0] ch).map
          fun col => col[row]?)
        = fun c : Column => [(fracColumn ft.numLanes (fun _ => (1 : K))
            (ft.cellAtRow c 0) ch)[row]?] from rfl]
    rw [flatMap_single, List.map_map]
    refine congrArg (List.map · Range256Chip.CHECKED_BYTES) (funext fun c => ?_)
    exact fracColumn_getElem ft.numLanes _ _ ch row hrow
  · rw [List.map_flatMap]
    rw [show (fun c => ([fracColumn ft.numLanes
            (fun r => ((predAtRow f ft r : ℕ) : K)) (ft.cellAtRow c 0) ch]).map
          fun col => col[row]?)
        = fun c : Column => [(fracColumn ft.numLanes
            (fun r => ((predAtRow f ft r : ℕ) : K)) (ft.cellAtRow c 0) ch)[row]?]
        from rfl]
    rw [flatMap_single, List.map_map]
    refine congrArg (List.map · Range256Chip.TYPE_U_CHECKED_BYTES) (funext fun c => ?_)
    exact fracColumn_getElem ft.numLanes _ _ ch row hrow

end Interaction

/-- **C6 witness**: the mirror holds at row 3 of the finalized 16-row
trace, over `ℚ`. -/
theorem c6_witness :
    3 < 16 * (trivTrace.finalize).numLanes
    ∧ (fill_interaction_trace (K := ℚ) predZero trivTrace.finalize 7).map
          (fun col => col[3]?)
        = (add_constraints (K := ℚ) predZero trivTrace.finalize 7 3).map some :=
  ⟨by decide,
   c6_constraints_mirror_interaction predZero trivTrace.finalize 7 3 (by decide)⟩

/-- **C7 counterexample**: with the configured lists the number of emitted
interaction columns is 31 × 4 + 9 + 2 = 135, not 126 as the claim states. -/
theorem c7_counterexample :
    (fill_interaction_trace (K := ℚ) predZero trivTrace.finalize 0).length = 135
    ∧ (fill_interaction_trace (K := ℚ) predZero trivTrace.finalize 0).length ≠ 126 := by
  have hlen : (fill_interaction_trace (K := ℚ) predZero trivTrace.finalize 0).length = 135 := by
    rw [fill_interaction_trace]
    simp only [List.length_append, List.length_flatMap, Function.comp_def,
      length_check_bytes, List.length_ofFn, List.length_singleton]
    decide
  exact ⟨hlen, by rw [hlen]; decide⟩

/-! ## The claimed sum and completeness -/

section ClaimedSum

variable {K : Type} [Field K]

/-- The claimed sum contributed by one interaction column: the total of
its per-row fractions `numerator / denominator`. -/
def colClaimedSum (col : List (Frac K)) : K :=
  (col.map fun fr => fr.num / fr.den).sum

/-- The total logup claimed sum accumulated over all interaction columns
produced by `fill_interaction_trace`. -/
def claimedSum (f : PredFn) (ft : FinalizedTraces) (ch : K) : K :=
  ((fill_interaction_trace f ft ch).map colClaimedSum).sum

/-- Modelled from the spec: the expected reference-table claimed sum — each
byte value 0..255 weighted by its multiplicity count (the preprocessed
range-table column itself is built outside the sources under
verification). -/
def refTableClaimedSum (m : Multiplicity) (ch : K) : K :=
  ∑ v : Fin 256, ((m v : ℕ) : K) / (ch - ((v : ℕ) : K))

theorem sumMapFlatMap {α β M : Type} [AddCommMonoid M] (l : List α)
    (g : α → List β) (h : β → M) :
    ((l.flatMap g).map h).sum = (l.map fun a => ((g a).map h).sum).sum := by
  induction l with
  | nil => rfl
  | cons a as ih => simp [List.flatMap_cons, List.map_append, List.sum_append, ih]

theorem listSum_finsetSum {α M : Type} [AddCommMonoid M] (l : List α) {β : Type}
    (s : Finset β) (F : α → β → M) :
    (l.map fun a => ∑ b ∈ s, F a b).sum = ∑ b ∈ s, (l.map fun a => F a b).sum := by
  induction l with
  | nil => simp
  | cons a as ih => simp [ih, Finset.sum_add_distrib]

theorem map_ite_sum {α M : Type} [AddCommMonoid M] (l : List α) (P : Prop)
    [Decidable P] (A : α → M) :
    (l.map fun a => if P then A a else 0).sum = if P then (l.map A).sum else 0 := by
  by_cases hP : P <;> simp [hP]

/-- Grouping a list sum by the (byte-ranged) values occurring in it. -/
theorem map_sum_eq_count_smul {M : Type} [AddCommMonoid M] (L : List ℕ) (g : ℕ → M)
    (hL : ∀ x ∈ L, x < 256) :
    (L.map g).sum = ∑ v ∈ Finset.range 256, (L.count v) • g v := by
  induction L with
  | nil => simp
  | cons a L ih =>
    have ha : a < 256 := hL a (List.mem_cons_self a L)
    rw [List.map_cons, List.sum_cons, ih fun x hx => hL x (List.mem_cons_of_mem a hx)]
    have hsplit : ∀ v : ℕ, ((a :: L).count v) • g v
        = (L.count v) • g v + (if a = v then g v else 0) := by
      intro v
      rw [List.count_cons]
      by_cases hv : a = v
      · simp [hv, add_nsmul]
      · simp [hv]
    rw [show (∑ v ∈ Finset.range 256, ((a :: L).count v) • g v)
          = ∑ v ∈ Finset.range 256,
              ((L.count v) • g v + (if a = v then g v else 0)) from
        Finset.sum_congr rfl fun v _ => hsplit v]
    rw [Finset.sum_add_distrib, Finset.sum_ite_eq, if_pos (Finset.mem_range.mpr ha)]
    rw [add_comm]

theorem colClaimedSum_fracColumn (numLanes : ℕ) (num : ℕ → K) (val : ℕ → ℕ)
    (ch : K) :
    colClaimedSum (fracColumn numLanes num val ch)
      = ∑ r ∈ Finset.range (16 * numLanes), num r / (ch - ((val r : ℕ) : K)) := by
  rw [colClaimedSum, fracColumn, List.map_map]
  exact listSumRange _ _

theorem sum_check_bytes (numLanes : ℕ) (limbs : List (ℕ → ℕ)) (ch : K) :
    ((check_bytes numLanes limbs ch).map colClaimedSum).sum
      = ∑ r ∈ Finset.range (16 * numLanes),
          (limbs.map fun val => (1 : K) / (ch - ((val r : ℕ) : K))).sum := by
  rw [check_bytes, List.map_map]
  rw [show (colClaimedSum ∘ fun val => fracColumn numLanes (fun _ => (1 : K)) val ch)
      = fun val : ℕ → ℕ =>
          ∑ r ∈ Finset.range (16 * numLanes), (1 : K) / (ch - ((val r : ℕ) : K))
      from funext fun val => colClaimedSum_fracColumn numLanes _ val ch]
  exact listSum_finsetSum _ _ _

theorem sum_condColumn (f : PredFn) (t : TracesBuilder) (c : Column) (ch : K)
    (hpred : ∀ row, IsTypeU.read_from_traces_builder f t row = 0
      ∨ IsTypeU.read_from_traces_builder f t row = 1) :
    colClaimedSum (fracColumn t.finalize.numLanes
        (fun r => ((predAtRow f t.finalize r : ℕ) : K)) (t.finalize.cellAtRow c 0) ch)
      = ∑ r ∈ Finset.range (16 * t.finalize.numLanes),
          (if IsTypeU.read_from_traces_builder f t r ≠ 0 then
            (1 : K) / (ch - ((t.cell c r 0 : ℕ) : K)) else 0) := by
  rw [colClaimedSum_fracColumn]
  refine Finset.sum_congr rfl fun r _ => ?_
  rw [predAtRow_finalize, finalize_cellAtRow]
  rcases hpred r with h0 | h1
  · rw [h0]
    simp
  · rw [h1]
    simp

theorem claimedSum_eq_rowSums (f : PredFn) (t : TracesBuilder) (ch : K)
    (hpred : ∀ row, IsTypeU.read_from_traces_builder f t row = 0
      ∨ IsTypeU.read_from_traces_builder f t row = 1) :
    claimedSum f t.finalize ch
      = ∑ r ∈ Finset.range (16 * t.finalize.numLanes),
          ((rowLimbs f t r).map fun x => (1 : K) / (ch - ((x : ℕ) : K))).sum := by
  rw [claimedSum, fill_interaction_trace, List.map_append, List.map_append,
    List.sum_append, List.sum_append]
  have hWords : ((Range256Chip.CHECKED_WORDS.flatMap fun c =>
        check_bytes t.finalize.numLanes
          (List.ofFn fun k : Fin 4 => t.finalize.cellAtRow c k) ch).map
          colClaimedSum).sum
      = ∑ r ∈ Finset.range (16 * t.finalize.numLanes),
          (Range256Chip.CHECKED_WORDS.map fun c =>
            ((t.wordLimbs r c).map fun x => (1 : K) / (ch - ((x : ℕ) : K))).sum).sum := by
    rw [sumMapFlatMap]
    rw [show (fun c => ((check_bytes t.finalize.numLanes
            (List.ofFn fun k : Fin 4 => t.finalize.cellAtRow c k) ch).map
            colClaimedSum).sum)
        = fun c : Column => ∑ r ∈ Finset.range (16 * t.finalize.numLanes),
            ((t.wordLimbs r c).map fun x => (1 : K) / (ch - ((x : ℕ) : K))).sum
        from funext fun c => ?_]
    · exact listSum_finsetSum _ _ _
    · rw [sum_check_bytes]
      refine Finset.sum_congr rfl fun r _ => ?_
      rw [TracesBuilder.wordLimbs, List.map_ofFn, List.map_ofFn, List.sum_ofFn,
        List.sum_ofFn]
      refine Finset.sum_congr rfl fun k _ => ?_
      simp [Function.comp, finalize_cellAtRow]
  have hBytes : ((Range256Chip.CHECKED_BYTES.flatMap fun c =>
        check_bytes t.finalize.numLanes [t.finalize.cellAtRow c 0] ch).map
          colClaimedSum).sum
      = ∑ r ∈ Finset.range (16 * t.finalize.numLanes),
          (Range256Chip.CHECKED_BYTES.map fun c =>
            ((t.byteLimbs r c).map fun x => (1 : K) / (ch - ((x : ℕ) : K))).sum).sum := by
    rw [sumMapFlatMap]
    rw [show (fun c => ((check_bytes t.finalize.numLanes
            [t.finalize.cellAtRow c 0] ch).map colClaimedSum).sum)
        = fun c : Column => ∑ r ∈ Finset.range (16 * t.finalize.numLanes),
            ((t.byteLimbs r c).map fun x => (1 : K) / (ch - ((x : ℕ) : K))).sum
        from funext fun c => ?_]
    · exact listSum_finsetSum _ _ _
    · rw [sum_check_bytes]
      refine Finset.sum_congr rfl fun r _ => ?_
      rw [TracesBuilder.byteLimbs]
      simp [finalize_cellAtRow]
  have hCond : ((Range256Chip.TYPE_U_CHECKED_BYTES.flatMap fun c =>
        [fracColumn t.finalize.numLanes (fun r => ((predAtRow f t.finalize r : ℕ) : K))
          (t.finalize.cellAtRow c 0) ch]).map colClaimedSum).sum
      = ∑ r ∈ Finset.range (16 * t.finalize.numLanes),
          (if IsTypeU.read_from_traces_builder f t r ≠ 0 then
            (Range256Chip.TYPE_U_CHECKED_BYTES.map fun c =>
              ((t.byteLimbs r c).map fun x => (1 : K) / (ch - ((x : ℕ) : K))).sum).sum
          else 0) := by
    rw [flatMap_single, List.map_map]
    rw [show (colClaimedSum ∘ fun c : Column =>
          fracColumn t.finalize.numLanes (fun r => ((predAtRow f t.finalize r : ℕ) : K))
            (t.finalize.cellAtRow c 0) ch)
        = fun c : Column => ∑ r ∈ Finset.range (16 * t.finalize.numLanes),
            (if IsTypeU.read_from_traces_builder f t r ≠ 0 then
              (1 : K) / (ch - ((t.cell c r 0 : ℕ) : K)) else 0)
        from funext fun c => sum_condColumn f t c ch hpred]
    rw [listSum_finsetSum]
    refine Finset.sum_congr rfl fun r _ => ?_
    rw [map_ite_sum]
    by_cases hp : IsTypeU.read_from_traces_builder f t r ≠ 0
    · rw [if_pos hp, if_pos hp]
      refine congrArg List.sum (List.map_congr_left fun c _ => ?_)
      rw [TracesBuilder.byteLimbs]
      simp
    · rw [if_neg hp, if_neg hp]
  rw [hWords, hBytes, hCond, ← Finset.sum_add_distrib, ← Finset.sum_add_distrib]
  refine Finset.sum_congr rfl fun r _ => ?_
  rw [rowLimbs]
  rw [List.map_append, List.sum_append, List.map_append, List.sum_append]
  rw [sumMapFlatMap, sumMapFlatMap]
  by_cases hp : IsTypeU.read_from_traces_builder f t r ≠ 0
  · rw [if_pos hp, if_pos hp, sumMapFlatMap]
  · rw [if_neg hp, if_neg hp]
    simp

/-- **C5**: for any trace in which every checked limb lies in `[0,255]`
(equivalently: the fill pass succeeds), the logup claimed sum accumulated
over all interaction columns produced by `fill_interaction_trace` equals
the reference-table claimed sum weighted by the filled multiplicities —
the claimed sum difference is the zero field element, for every
challenge. -/
theorem c5_completeness_zero_difference (mode : BuildMode) (f : PredFn)
    (t : TracesBuilder) (m : Multiplicity) (ch : K)
    (h16 : 16 ∣ t.numRows)
    (hpred : ∀ row, IsTypeU.read_from_traces_builder f t row = 0
      ∨ IsTypeU.read_from_traces_builder f t row = 1)
    (hfill : fill_main_trace mode f t (t.numRows - 1) zeroMultiplicity = .ok (t, m)) :
    claimedSum f t.finalize ch - refTableClaimedSum m ch = 0 := by
  rw [fill_main_trace_last, except_map_ok] at hfill
  obtain ⟨m1, hok, hpair⟩ := hfill
  obtain rfl : m1 = m := congrArg Prod.snd hpair
  obtain ⟨hall, rfl⟩ := (sweep_ok_iff _ _ _ _ _).mp hok
  have hN : 16 * t.finalize.numLanes = t.numRows := Nat.mul_div_cancel' h16
  rw [claimedSum_eq_rowSums f t ch hpred, hN]
  rw [show (∑ r ∈ Finset.range t.numRows,
        ((rowLimbs f t r).map fun x => (1 : K) / (ch - ((x : ℕ) : K))).sum)
      = ((allLimbs f t).map fun x => (1 : K) / (ch - ((x : ℕ) : K))).sum from by
    rw [allLimbs, sumMapFlatMap, listSumRange]]
  rw [map_sum_eq_count_smul _ _ hall]
  have hpoint : ∀ v : Fin 256,
      (((incrList (allLimbs f t) zeroMultiplicity) v : ℕ) : K) / (ch - ((v : ℕ) : K))
        = ((allLimbs f t).count (v : ℕ)) • ((1 : K) / (ch - ((v : ℕ) : K))) := by
    intro v
    rw [incrList_count]
    simp [zeroMultiplicity, nsmul_eq_mul, mul_one_div, div_eq_mul_inv]
  rw [refTableClaimedSum, Finset.sum_congr rfl fun v _ => hpoint v]
  rw [Fin.sum_univ_eq_sum_range
    (fun n => ((allLimbs f t).count n) • ((1 : K) / (ch - ((n : ℕ) : K)))) 256]
  exact sub_self _

end ClaimedSum

/-- **C5 witness**: on the all-zero 16-row trace over `ℚ` with challenge 5,
the fill pass succeeds and the claimed sum difference is zero. -/
theorem c5_witness :
    (16 ∣ trivTrace.numRows)
    ∧ (∀ row, IsTypeU.read_from_traces_builder predZero trivTrace row = 0
        ∨ IsTypeU.read_from_traces_builder predZero trivTrace row = 1)
    ∧ fill_main_trace BuildMode.test predZero trivTrace (trivTrace.numRows - 1)
        zeroMultiplicity = .ok (trivTrace, trivMult)
    ∧ claimedSum (K := ℚ) predZero trivTrace.finalize 5
        - refTableClaimedSum trivMult 5 = 0 :=
  ⟨⟨1, rfl⟩, fun _ => Or.inl rfl, trivTrace_fill,
   c5_completeness_zero_difference BuildMode.test predZero trivTrace trivMult 5
     ⟨1, rfl⟩ (fun _ => Or.inl rfl) trivTrace_fill⟩

end NexusRange256
